import Mathlib

/-!
# clio: the sorted index table (`itable`), its parser, and transactions

A shallow embedding of `itable.go`, `inode.go`, `datainput.go`, `hashedstreams.go`,
`options.go`, `db.go` and `txn.go`.  Go slices are Lean lists, a byte is a
natural number, machine integers are natural numbers reduced modulo `2 ^ 64`
where the source can wrap.  The standard-library routines the source calls (`sort.Search`, `bytes.Equal`,
`bytes.Compare`, `copy`, `append`, `io.ReadFull`) are embedded from the Go
standard library, next to the functions of the repository that call them.
-/

namespace Clio

/-! ## Values -/

/-- A Go `[]byte`. -/
abbrev Bytes := List Nat

/-- The type `hPtr` of `inode.go`: a `[32]byte` array. -/
abbrev hPtr := { l : List Nat // l.length = 32 }

/-- The zero value `hPtr{}`. -/
def hPtr.zero : hPtr := ⟨List.replicate 32 0, by simp⟩

/-- The struct `inode` of `inode.go`. -/
structure inode where
  name : Bytes
  ptr : hPtr
  deriving DecidableEq

/-- The zero value `inode{}`. -/
def inode.zero : inode := { name := [], ptr := hPtr.zero }

/-- The struct `itable` of `itable.go`; `inodes` is the slice type of `inode.go`. -/
structure itable where
  txnId : Nat
  inodes : List inode
  deriving DecidableEq

/-! ## Standard library -/

/-- Go `bytes.Equal`. -/
def bytes.Equal (a b : Bytes) : Bool := decide (a = b)

/-- Go `bytes.Compare`: byte-lexicographic comparison, `-1`, `0` or `1`. -/
def bytes.Compare : Bytes → Bytes → Int
  | [], [] => 0
  | [], _ :: _ => -1
  | _ :: _, [] => 1
  | a :: as, b :: bs =>
    if a < b then -1 else if b < a then 1 else bytes.Compare as bs

/-- The loop of Go `sort.Search`, one iteration per unit of fuel:
`for i < j { h := int(uint(i+j) >> 1); if !f(h) { i = h + 1 } else { j = h } }`.
Slice lengths are below `2 ^ 63`, so `i + j` does not wrap. -/
def sort.searchLoop (f : Nat → Bool) : Nat → Nat → Nat → Nat
  | 0, i, _ => i
  | fuel + 1, i, j =>
    if i < j then
      let h := (i + j) / 2
      if !f h then sort.searchLoop f fuel (h + 1) j
      else sort.searchLoop f fuel i h
    else i

/-- Go `sort.Search(n, f)`: `i, j := 0, n`, the loop, `return i`.  The interval
`j - i` shrinks in every iteration, so `n` units of fuel are enough
(`sort.searchLoop_fuel`). -/
def sort.Search (n : Nat) (f : Nat → Bool) : Nat :=
  sort.searchLoop f n 0 n

/-- Go `copy(dst, src)`: the new contents of `dst` and the number of elements
copied, `min(len(dst), len(src))`.  Overlapping regions behave as if `src` were
read first. -/
def goCopy {α : Type} (dst src : List α) : List α × Nat :=
  (src.take dst.length ++ dst.drop src.length, min dst.length src.length)

/-! ## `inode.go` -/

/-- The method `inodes.Len`. -/
def inodes.Len (k : List inode) : Nat := k.length

/-- The method `inodes.Less`: `bytes.Compare(k[i].name, k[j].name) < 0`. -/
def inodes.Less (k : List inode) (i j : Nat) : Bool :=
  match k[i]?, k[j]? with
  | some a, some b => decide (bytes.Compare a.name b.name < 0)
  | _, _ => false

/-! ## `itable.go`: the ordered collection -/

/-- The closure handed to `sort.Search` by `Get`, `Insert`, `Delete` and
`DeleteAll`: `func(i int) bool { return bytes.Equal(name, t.inodes[i].name) }`.
`sort.Search` only calls it with `i < len(t.inodes)`. -/
def itable.probe (t : itable) (name : Bytes) (i : Nat) : Bool :=
  match t.inodes[i]? with
  | some e => bytes.Equal name e.name
  | none => false

/-- The test `n < len(t.inodes) && bytes.Equal(t.inodes[n].name, name)`. -/
def itable.hit (t : itable) (n : Nat) (name : Bytes) : Bool :=
  match t.inodes[n]? with
  | some e => bytes.Equal e.name name
  | none => false

/-- The method `itable.Size`. -/
def itable.Size (t : itable) : Nat := t.inodes.length

/-- The method `itable.Get`. -/
def itable.Get (t : itable) (name : Bytes) : Bool × hPtr :=
  let n := sort.Search t.inodes.length (t.probe name)
  match t.inodes[n]? with
  | some e => if bytes.Equal e.name name then (true, e.ptr) else (false, hPtr.zero)
  | none => (false, hPtr.zero)

/-- The method `itable.Has`. -/
def itable.Has (t : itable) (name : Bytes) : Bool :=
  (t.Get name).1

/-- The method `itable.insertAt`:
`append(t.inodes, inode{})`, `copy(t.inodes[index+1:], t.inodes[index:])`,
`t.inodes[index] = node`. -/
def itable.insertAt (t : itable) (index : Nat) (node : inode) : itable :=
  let grown := t.inodes ++ [inode.zero]
  let moved := grown.take (index + 1) ++ (goCopy (grown.drop (index + 1)) (grown.drop index)).1
  { t with inodes := moved.set index node }

/-- The method `itable.Insert`. -/
def itable.Insert (t : itable) (node : inode) (unique : Bool) : itable :=
  let n := sort.Search t.inodes.length (t.probe node.name)
  if t.hit n node.name then
    if unique then { t with inodes := t.inodes.set n node }
    else t.insertAt n node
  else t.insertAt n node

/-- The method `itable.deleteAt`:
`t.inodes = t.inodes[:index+copy(t.inodes[index:], t.inodes[index+1:])]`. -/
def itable.deleteAt (t : itable) (index : Nat) : itable :=
  let c := goCopy (t.inodes.drop index) (t.inodes.drop (index + 1))
  { t with inodes := (t.inodes.take index ++ c.1).take (index + c.2) }

/-- The method `itable.Delete`. -/
def itable.Delete (t : itable) (name : Bytes) : (Bool × inode) × itable :=
  let n := sort.Search t.inodes.length (t.probe name)
  match t.inodes[n]? with
  | some res => if bytes.Equal res.name name then ((true, res), t.deleteAt n) else ((false, inode.zero), t)
  | none => ((false, inode.zero), t)

/-- The loop of `itable.DeleteAll`,
`for n < len(t.inodes) && bytes.Equal(t.inodes[n].name, name) { res = append(res, t.inodes[n]); t.deleteAt(n) }`,
one test of the loop condition per unit of fuel; `none` when the fuel runs out
before the condition fails. -/
def itable.deleteAllLoop (name : Bytes) (n : Nat) : Nat → itable → List inode → Option (List inode × itable)
  | 0, _, _ => none
  | fuel + 1, t, res =>
    match t.inodes[n]? with
    | some e =>
      if bytes.Equal e.name name then itable.deleteAllLoop name n fuel (t.deleteAt n) (res ++ [e])
      else some (res, t)
    | none => some (res, t)

/-- The method `itable.DeleteAll` run with a given amount of fuel for its loop. -/
def itable.DeleteAllFuel (fuel : Nat) (t : itable) (name : Bytes) : Option (List inode × itable) :=
  let n := sort.Search t.inodes.length (t.probe name)
  itable.deleteAllLoop name n fuel t []

/-- The method `itable.DeleteAll`: the loop body runs at most `Size` times, so
`Size + 1` tests of the loop condition are enough (`itable.deleteAllLoop_spec`). -/
def itable.DeleteAll (t : itable) (name : Bytes) : Option (List inode × itable) :=
  t.DeleteAllFuel (t.Size + 1) name

/-- The sort invariant of the table: adjacent entries are in byte-lexicographic
order of their names, `bytes.Compare(e[i].name, e[i+1].name) <= 0`. -/
def itable.sorted (t : itable) : Prop :=
  ∀ i : Nat, ∀ a b : inode, t.inodes[i]? = some a → t.inodes[i + 1]? = some b →
    bytes.Compare a.name b.name ≤ 0

/-- The empty table `&itable{}`. -/
def itable.empty : itable := { txnId := 0, inodes := [] }

/-! ## Errors -/

/-- The format strings of the `fmt.Errorf` calls in `itable.go`,
`hashedstreams.go` and `txn.go`, with the values they print. -/
inductive Msg where
  | invalidMagicBytes
  | invalidVersion
  | tooManyIndexEntries (count : Nat)
  | namesSectionTooLarge (namesBytes : Nat)
  | indexTruncated
  | integrityCheckFailed
  | failedToHash
  | failedToRead
  | unableToHashTheBuffer
  | transactionAlreadyClosed
  deriving DecidableEq

/-- A non-nil Go `error` value, as far as the source produces one: the sentinels
`io.EOF` and `io.ErrUnexpectedEOF`, a `fmt.Errorf` value with the error it wraps
through `%w` (possibly nil), and the struct `ErrInvalidIndexFormat` of `itable.go`
with its `Cause`.  A Go `error` that may be nil is an `Option GoError`. -/
inductive GoError where
  | EOF
  | ErrUnexpectedEOF
  | Errorf (msg : Msg) (wrapped : Option GoError)
  | ErrInvalidIndexFormat (Cause : Option GoError)

/-- The method `ErrInvalidIndexFormat.Unwrap`, on a value of that type. -/
def GoError.Unwrap : GoError → Option GoError
  | .ErrInvalidIndexFormat c => c
  | .Errorf _ w => w
  | _ => none

/-- Whether an error value has the dynamic type `ErrInvalidIndexFormat`. -/
def GoError.isErrInvalidIndexFormat : GoError → Bool
  | .ErrInvalidIndexFormat _ => true
  | _ => false

/-! ## `hashedstreams.go`, `options.go`, `datainput.go` -/

/-- Struct `Options` of `options.go`. -/
structure Options where
  Paths : List String
  HMACSecret : Bytes

/-- A Go `hash.Hash`: the digest function of the algorithm and the bytes written
so far. -/
structure Hash where
  digest : Bytes → Bytes
  written : Bytes

/-- Go `hash.Hash.Write`: adds the data to the running hash and never fails. -/
def Hash.Write (h : Hash) (p : Bytes) : (Nat × Option GoError) × Hash :=
  ((p.length, none), { h with written := h.written ++ p })

/-- Go `hash.Hash.Sum(b)`: appends the current digest to `b`, state unchanged. -/
def Hash.Sum (h : Hash) (b : Bytes) : Bytes :=
  b ++ h.digest h.written

/-- The method `Options.newHash`: `sha512.New512_256()`, whose digest function
is the parameter `sha512_256`. -/
def Options.newHash (_o : Options) (sha512_256 : Bytes → Bytes) : Hash :=
  { digest := sha512_256, written := [] }

/-- The `io.Reader` below the parser: a finite stream of bytes that hands out
what it has, as Go `bytes.Reader` does. -/
structure ByteStream where
  rest : Bytes

/-- Go `bytes.Reader.Read(p)`: `io.EOF` when nothing is left, else
`copy(p, rest)`. The new contents of `p` are returned with the result. -/
def ByteStream.Read (r : ByteStream) (p : Bytes) : (Nat × Option GoError) × Bytes × ByteStream :=
  match r.rest with
  | [] => ((0, some GoError.EOF), p, r)
  | _ :: _ =>
    let c := goCopy p r.rest
    ((c.2, none), c.1, { rest := r.rest.drop c.2 })

/-- Struct `HashingReader` of `hashedstreams.go`. -/
structure HashingReader where
  hasher : Hash
  reader : ByteStream
  count : Nat

/-- The function `NewHashingReader`. -/
def NewHashingReader (hasher : Hash) (reader : ByteStream) : HashingReader :=
  { hasher := hasher, reader := reader, count := 0 }

/-- The method `HashingReader.Read`. -/
def HashingReader.Read (h : HashingReader) (p : Bytes) : (Nat × Option GoError) × Bytes × HashingReader :=
  let r := h.reader.Read p
  let n := r.1.1
  let err := r.1.2
  let w := h.hasher.Write (r.2.1.take n)
  let n2 := w.1.1
  let err2 := w.1.2
  let h1 : HashingReader := { h with hasher := w.2, reader := r.2.2 }
  match err, err2 with
  | some e, some _ =>
    ((n, some (GoError.Errorf Msg.failedToHash (some (GoError.Errorf Msg.failedToRead (some e))))), r.2.1, h1)
  | some e, none => ((n, some e), r.2.1, h1)
  | none, some e2 => ((n2, some e2), r.2.1, h1)
  | none, none =>
    if n ≠ n2 then ((n, some (GoError.Errorf Msg.unableToHashTheBuffer none)), r.2.1, h1)
    else ((n, none), r.2.1, h1)

/-- The method `HashingReader.Hash`. -/
def HashingReader.Hash (h : HashingReader) : Hash := h.hasher

/-- The method `HashingReader.Sum`. -/
def HashingReader.Sum (h : HashingReader) : Bytes := h.hasher.Sum []

/-- The method `HashingReader.Count`. -/
def HashingReader.Count (h : HashingReader) : Nat := h.count

/-- The loop of Go `io.ReadAtLeast`,
`for n < min && err == nil { nn, err = r.Read(buf[n:]); n += nn }`, one test of
the loop condition per unit of fuel. -/
def goReadAtLeastLoop (min : Nat) :
    Nat → HashingReader → Bytes → Nat → Option GoError → (Nat × Option GoError) × Bytes × HashingReader
  | 0, r, buf, n, err => ((n, err), buf, r)
  | fuel + 1, r, buf, n, err =>
    if n < min ∧ err.isNone then
      let s := r.Read (buf.drop n)
      goReadAtLeastLoop min fuel s.2.2 (buf.take n ++ s.2.1) (n + s.1.1) s.1.2
    else ((n, err), buf, r)

/-- Go `io.ReadFull(r, buf)`, which is `io.ReadAtLeast(r, buf, len(buf))`: the
loop, then `if n >= min { err = nil } else if n > 0 && err == EOF { err = ErrUnexpectedEOF }`.
Every read of a `ByteStream` delivers a byte or fails, so `len(buf) + 1` tests
of the loop condition are enough (`goReadAtLeastLoop_exit`). -/
def goReadFull (r : HashingReader) (buf : Bytes) : (Nat × Option GoError) × Bytes × HashingReader :=
  let min := buf.length
  let s := goReadAtLeastLoop min (min + 1) r buf 0 none
  let n := s.1.1
  let err : Option GoError :=
    if min ≤ n then none
    else match s.1.2 with
      | some GoError.EOF => if 0 < n then some GoError.ErrUnexpectedEOF else some GoError.EOF
      | e => e
  ((n, err), s.2.1, s.2.2)

/-- Go `binary.LittleEndian.Uint64`. -/
def LittleEndian.Uint64 (b : Bytes) : Nat :=
  (b.take 8).foldr (fun x acc => x % 256 + 256 * acc) 0

/-- Struct `DataInputReader` of `datainput.go`; the field `in` is `input`. -/
structure DataInputReader where
  buf8 : Bytes
  input : HashingReader
  firstErr : Option GoError

/-- The function `NewDataInputReader`. -/
def NewDataInputReader (input : HashingReader) : DataInputReader :=
  { buf8 := List.replicate 8 0, input := input, firstErr := none }

/-- The method `DataInputReader.hasErr`. -/
def DataInputReader.hasErr (r : DataInputReader) (err : Option GoError) : Bool × DataInputReader :=
  let r1 : DataInputReader :=
    if err.isSome && r.firstErr.isNone then { r with firstErr := err } else r
  if r1.firstErr.isSome then (true, r1) else (false, r1)

/-- The method `DataInputReader.ReadUInt64`. -/
def DataInputReader.ReadUInt64 (r : DataInputReader) : Nat × DataInputReader :=
  let s := goReadFull r.input r.buf8
  let r1 : DataInputReader := { r with buf8 := s.2.1, input := s.2.2 }
  let c := r1.hasErr s.1.2
  if c.1 then (0, c.2) else (LittleEndian.Uint64 c.2.buf8, c.2)

/-- The method `DataInputReader.ReadFull`: `io.ReadFull(r.in, r.buf8)`, so the
bytes go to the reader's own eight-byte buffer and `b` keeps its contents, which
are returned with the count. -/
def DataInputReader.ReadFull (r : DataInputReader) (b : Bytes) : Nat × Bytes × DataInputReader :=
  let s := goReadFull r.input r.buf8
  let r1 : DataInputReader := { r with buf8 := s.2.1, input := s.2.2 }
  let c := r1.hasErr s.1.2
  if c.1 then (s.1.1, b, c.2) else (s.1.1, b, c.2)

/-- The method `DataInputReader.Error`. -/
def DataInputReader.Error (r : DataInputReader) : Option GoError := r.firstErr

/-! ## `itable.go`: the parser -/

/-- The variable `itableMagic`, the bytes of `"clio-idx"`. -/
def itableMagic : Bytes := [99, 108, 105, 111, 45, 105, 100, 120]

/-- The constant `itableVersion`. -/
def itableVersion : Nat := 1

/-- Go `bits.UintSize` on a 64-bit host. -/
def UintSize : Nat := 64

/-- The constant `maxInt` of `itable.Read`: `1<<(bits.UintSize-1) - 1`. -/
def maxInt : Nat := 2 ^ (UintSize - 1) - 1

/-- The method `itable.Read`: the error it returns and the receiver afterwards.
`hashingReader` and `din.in` are the same object, so the hasher consulted at the
end is the one inside `din`. No statement of the source assigns to `t`. -/
def itable.Read (sha512_256 : Bytes → Bytes) (t : itable) (opts : Options) (reader : ByteStream) :
    Option GoError × itable :=
  let hashingReader := NewHashingReader (opts.newHash sha512_256) reader
  let din := NewDataInputReader hashingReader
  let m := din.ReadFull (List.replicate 8 0)
  let readMagic := m.2.1
  let din := m.2.2
  if !bytes.Equal readMagic itableMagic then
    (some (GoError.ErrInvalidIndexFormat (some (GoError.Errorf Msg.invalidMagicBytes din.Error))), t)
  else
    let v := din.ReadUInt64
    let version := v.1
    let din := v.2
    if version ≠ itableVersion then
      (some (GoError.ErrInvalidIndexFormat (some (GoError.Errorf Msg.invalidVersion din.Error))), t)
    else
      let din := din.ReadUInt64.2
      let c := din.ReadUInt64
      let count := c.1
      let din := c.2
      if din.Error.isSome then
        (some (GoError.ErrInvalidIndexFormat din.Error), t)
      else if maxInt < count * 32 % 2 ^ 64 then
        (some (GoError.ErrInvalidIndexFormat
          (some (GoError.Errorf (Msg.tooManyIndexEntries count) din.Error))), t)
      else
        let din := (din.ReadFull (List.replicate (32 * count % 2 ^ 64) 0)).2.2
        let nb := din.ReadUInt64
        let namesBytes := nb.1
        let din := nb.2
        if maxInt < namesBytes then
          (some (GoError.ErrInvalidIndexFormat
            (some (GoError.Errorf (Msg.namesSectionTooLarge namesBytes) din.Error))), t)
        else
          let din := (din.ReadFull (List.replicate namesBytes 0)).2.2
          let x := din.ReadFull (List.replicate 32 0)
          let expectedIntegrityHash := x.2.1
          let din := x.2.2
          if din.Error.isSome then
            (some (GoError.ErrInvalidIndexFormat (some (GoError.Errorf Msg.indexTruncated din.Error))), t)
          else
            let integrity := din.input.Hash.Sum opts.HMACSecret
            if !bytes.Equal integrity expectedIntegrityHash then
              (some (GoError.ErrInvalidIndexFormat (some (GoError.Errorf Msg.integrityCheckFailed none))), t)
            else (none, t)

/-! ## Sample values -/

/-- A pointer whose 32 bytes all equal `b`. -/
def hPtr.fill (b : Nat) : hPtr := ⟨List.replicate 32 b, by simp⟩

/-- The entry named `"a"`. -/
def entryA : inode := { name := [97], ptr := hPtr.fill 1 }

/-- The entry named `"b"`. -/
def entryB : inode := { name := [98], ptr := hPtr.fill 2 }

/-- The sorted two-entry table `"a"`, `"b"`. -/
def tableAB : itable := { txnId := 7, inodes := [entryA, entryB] }

/-- Go `binary.LittleEndian.PutUint64`, the inverse of `LittleEndian.Uint64`. -/
def LittleEndian.PutUint64 (v : Nat) : Bytes :=
  (List.range 8).map (fun k => v / 256 ^ k % 256)

/-- The image of the empty table with transaction id 0 in the format documented
at `type itable`: magic, version 1, txnid 0, count 0, no pointers, names length
0, no names, and the digest of those forty bytes (empty secret). -/
def emptyTableImage (sha512_256 : Bytes → Bytes) : Bytes :=
  let body := itableMagic ++ LittleEndian.PutUint64 itableVersion ++ LittleEndian.PutUint64 0 ++
    LittleEndian.PutUint64 0 ++ LittleEndian.PutUint64 0
  body ++ sha512_256 body

/-- A digest function used to run the parser on sample input: 32 zero bytes. -/
def zeroDigest : Bytes → Bytes := fun _ => List.replicate 32 0

/-- Whether an error value is the integrity error of `itable.Read`: an
`ErrInvalidIndexFormat` whose cause is "integrity check of index failed". -/
def GoError.isIntegrityError : GoError → Bool
  | .ErrInvalidIndexFormat (some (.Errorf Msg.integrityCheckFailed _)) => true
  | _ => false

/-- The three-entry sorted table `"a"`, `"b"`, `"b"`. -/
def tableABB : itable :=
  { txnId := 7, inodes := [entryA, entryB, { name := [98], ptr := hPtr.fill 3 }] }

/-! ## The image of a table -/

/-- Little-endian two-byte length prefix of a name. -/
def LittleEndian.PutUint16 (v : Nat) : Bytes :=
  [v % 256, v / 256 % 256]

/-- Modelled from the spec: the serializer `Write` is not in the source. The
names section of the format: per entry, in table order, a two-byte
little-endian length prefix followed by the name. -/
def namesSection (l : List inode) : Bytes :=
  (l.map (fun e => LittleEndian.PutUint16 e.name.length ++ e.name)).flatten

/-- Modelled from the spec: the serializer `Write` is not in the source. The
bytes of an image before its digest, laid out as the format comment at
`type itable` says: magic, version, txnid, count, `count * 32` pointer bytes,
length of the names section, names section. -/
def itable.imageBody (t : itable) : Bytes :=
  itableMagic ++ LittleEndian.PutUint64 itableVersion ++ LittleEndian.PutUint64 t.txnId ++
    LittleEndian.PutUint64 t.inodes.length ++ (t.inodes.map (fun e => e.ptr.val)).flatten ++
    LittleEndian.PutUint64 (namesSection t.inodes).length ++ namesSection t.inodes

/-- Modelled from the spec: the serializer `Write` is not in the source. The
image of a table under a secret: the body followed by the keyed digest of the
body, the keyed digest being a parameter. -/
def itable.image (keyedDigest : Bytes → Bytes → Bytes) (t : itable) (secret : Bytes) : Bytes :=
  t.imageBody ++ keyedDigest secret t.imageBody

/-- A keyed digest used to build sample images: 32 zero bytes. -/
def zeroKeyedDigest : Bytes → Bytes → Bytes := fun _ _ => List.replicate 32 0

/-! ## `db.go`, `txn.go` -/

/-- A call on the `sync.RWMutex` of a `DB`. -/
inductive MutexCall where
  | Lock
  | Unlock
  | RLock
  | RUnlock
  deriving DecidableEq

/-- Struct `DB` of `db.go`. The field `mutex` is the lock state of the store,
recorded as the calls made on the `sync.RWMutex` so far, oldest first; a call
that acquires is recorded when it returns. -/
structure DB where
  mutex : List MutexCall
  options : Options

/-- The function `Open`: `return &DB{options: opts}, nil`. -/
def Open (opts : Options) : Option DB × Option GoError :=
  (some { mutex := [], options := opts }, none)

/-- The variable `ErrTxnAlreadyClosed`: `fmt.Errorf("transaction already closed")`. -/
def ErrTxnAlreadyClosed : GoError := GoError.Errorf Msg.transactionAlreadyClosed none

/-- Struct `Txn` of `txn.go`. The pointer field `db` is not stored: the methods
take the `DB` it points to and give it back. -/
structure Txn where
  readOnly : Bool
  alive : Bool
  deriving DecidableEq

/-- The method `Txn.lock`. -/
def Txn.lock (t : Txn) (db : DB) (readOnly : Bool) : Txn × DB :=
  let t1 : Txn := { t with readOnly := readOnly }
  if t1.readOnly then (t1, { db with mutex := db.mutex ++ [MutexCall.RLock] })
  else (t1, { db with mutex := db.mutex ++ [MutexCall.Lock] })

/-- The method `Txn.unlock`. -/
def Txn.unlock (t : Txn) (db : DB) : DB :=
  if t.readOnly then { db with mutex := db.mutex ++ [MutexCall.RUnlock] }
  else { db with mutex := db.mutex ++ [MutexCall.Unlock] }

/-- The function `newTransaction`: `t := &Txn{db: db, alive: true}`,
`t.lock(readOnly)`, `return t`. -/
def newTransaction (db : DB) (readOnly : Bool) : Txn × DB :=
  let t : Txn := { readOnly := false, alive := true }
  t.lock db readOnly

/-- How a call ends: it returns a value, or it panics. -/
inductive Outcome (α : Type) where
  | returns (a : α)
  | panics

/-- The method `Txn.Commit`: `panic("implement me")`. -/
def Txn.Commit (_t : Txn) (_db : DB) : Outcome (Option GoError × Txn × DB) :=
  Outcome.panics

/-- The method `Txn.Close`. -/
def Txn.Close (t : Txn) (db : DB) : Option GoError × Txn × DB :=
  if !t.alive then (some ErrTxnAlreadyClosed, t, db)
  else
    let t1 : Txn := { t with alive := false }
    (none, t1, t1.unlock db)

/-! ## Sample readers and stores -/

/-- A `HashingReader` over the given bytes, as `NewHashingReader` builds it. -/
def sampleHashingReader (stream : Bytes) : HashingReader :=
  NewHashingReader { digest := zeroDigest, written := [] } { rest := stream }

/-- A `DataInputReader` over the given bytes, as `NewDataInputReader` builds it. -/
def sampleDataInput (stream : Bytes) : DataInputReader :=
  NewDataInputReader (sampleHashingReader stream)

/-- A store with an untouched lock and empty options. -/
def sampleDB : DB := { mutex := [], options := { Paths := [], HMACSecret := [] } }

/-! ## Facts about the standard-library embeddings -/

theorem sort.searchLoop_spec (f : Nat → Bool) :
    ∀ fuel i j : Nat, i ≤ j → j - i ≤ fuel →
      i ≤ sort.searchLoop f fuel i j ∧ sort.searchLoop f fuel i j ≤ j ∧
      (sort.searchLoop f fuel i j = i ∨
        (0 < sort.searchLoop f fuel i j ∧ f (sort.searchLoop f fuel i j - 1) = false)) ∧
      (sort.searchLoop f fuel i j = j ∨ f (sort.searchLoop f fuel i j) = true) := by
  intro fuel
  induction fuel with
  | zero =>
    intro i j hij hf
    have : i = j := by omega
    subst this
    simp [sort.searchLoop]
  | succ k ih =>
    intro i j hij hf
    unfold sort.searchLoop
    by_cases hlt : i < j
    · simp only [hlt, if_true]
      have hh1 : i ≤ (i + j) / 2 := by omega
      have hh2 : (i + j) / 2 < j := by omega
      by_cases hfh : f ((i + j) / 2) = true
      · simp only [hfh, Bool.not_true, Bool.false_eq_true, if_false]
        obtain ⟨h1, h2, h3, h4⟩ := ih i ((i + j) / 2) hh1 (by omega)
        refine ⟨h1, by omega, h3, ?_⟩
        rcases h4 with h4 | h4
        · right; rw [h4]; exact hfh
        · right; exact h4
      · have hfh' : f ((i + j) / 2) = false := by simpa using hfh
        simp only [hfh', Bool.not_false, if_true]
        obtain ⟨h1, h2, h3, h4⟩ := ih ((i + j) / 2 + 1) j (by omega) (by omega)
        refine ⟨by omega, h2, ?_, h4⟩
        rcases h3 with h3 | h3
        · right; rw [h3]; exact ⟨by omega, by simpa using hfh'⟩
        · right; exact h3
    · have : i = j := by omega
      subst this
      simp

theorem goCopy_insert {α : Type} (z node : α) :
    ∀ (l : List α) (i : Nat), i ≤ l.length →
      ((l ++ [z]).take (i + 1) ++ (goCopy ((l ++ [z]).drop (i + 1)) ((l ++ [z]).drop i)).1).set i node
        = l.take i ++ node :: l.drop i := by
  intro l
  induction l with
  | nil =>
    intro i hi
    have : i = 0 := by simpa using hi
    subst this
    simp [goCopy]
  | cons a l ih =>
    intro i hi
    cases i with
    | zero =>
      simp only [goCopy, List.take_succ_cons, List.take_zero, List.drop_succ_cons, List.drop_zero,
        List.cons_append, List.length_append, List.length_cons, List.length_nil, List.set_cons_zero,
        List.nil_append]
      simp
    | succ i =>
      have hi' : i ≤ l.length := by simpa using hi
      have := ih i hi'
      simpa [goCopy] using this

theorem goCopy_delete {α : Type} :
    ∀ (l : List α) (i : Nat), i < l.length →
      (l.take i ++ (goCopy (l.drop i) (l.drop (i + 1))).1).take
          (i + (goCopy (l.drop i) (l.drop (i + 1))).2)
        = l.take i ++ l.drop (i + 1) := by
  intro l i hi
  simp only [goCopy, List.length_drop]
  have h1 : min (l.length - i) (l.length - (i + 1)) = l.length - (i + 1) := by omega
  have e1 : List.take (l.length - i) (List.drop (i + 1) l) = List.drop (i + 1) l :=
    List.take_of_length_le (by simp; omega)
  rw [h1, e1, ← List.append_assoc]
  apply List.take_left'
  simp
  omega

theorem itable.insertAt_inodes (t : itable) (index : Nat) (node : inode) (h : index ≤ t.inodes.length) :
    (t.insertAt index node).inodes = t.inodes.take index ++ node :: t.inodes.drop index := by
  unfold itable.insertAt
  exact goCopy_insert inode.zero node t.inodes index h

theorem itable.deleteAt_inodes (t : itable) (index : Nat) (h : index < t.inodes.length) :
    (t.deleteAt index).inodes = t.inodes.take index ++ t.inodes.drop (index + 1) := by
  unfold itable.deleteAt
  exact goCopy_delete t.inodes index h

theorem sort.searchLoop_fuel (f : Nat → Bool) :
    ∀ fuel fuel' i j : Nat, j - i ≤ fuel → j - i ≤ fuel' →
      sort.searchLoop f fuel i j = sort.searchLoop f fuel' i j := by
  intro fuel
  induction fuel with
  | zero =>
    intro fuel' i j h _
    have hij : ¬ i < j := by omega
    cases fuel' <;> simp [sort.searchLoop, hij]
  | succ k ih =>
    intro fuel' i j h h'
    cases fuel' with
    | zero =>
      have hij : ¬ i < j := by omega
      simp [sort.searchLoop, hij]
    | succ k' =>
      unfold sort.searchLoop
      by_cases hlt : i < j
      · simp only [hlt, if_true]
        by_cases hfh : f ((i + j) / 2) = true
        · simp only [hfh, Bool.not_true, Bool.false_eq_true, if_false]
          exact ih k' i ((i + j) / 2) (by omega) (by omega)
        · have hfh' : f ((i + j) / 2) = false := by simpa using hfh
          simp only [hfh', Bool.not_false, if_true]
          exact ih k' ((i + j) / 2 + 1) j (by omega) (by omega)
      · simp [hlt]

theorem sort.Search_spec (n : Nat) (f : Nat → Bool) :
    sort.Search n f ≤ n ∧
    (sort.Search n f = 0 ∨ (0 < sort.Search n f ∧ f (sort.Search n f - 1) = false)) ∧
    (sort.Search n f = n ∨ f (sort.Search n f) = true) := by
  obtain ⟨_, h2, h3, h4⟩ := sort.searchLoop_spec f n 0 n (Nat.zero_le n) (by omega)
  exact ⟨h2, h3, h4⟩

/-! ## Facts about the table operations -/

theorem itable.hit_eq_probe (t : itable) (n : Nat) (name : Bytes) :
    t.hit n name = t.probe name n := by
  unfold itable.hit itable.probe
  cases t.inodes[n]? with
  | none => rfl
  | some e =>
    simp only [bytes.Equal]
    by_cases h : e.name = name
    · simp [h]
    · have h' : ¬ name = e.name := fun k => h k.symm
      simp [h, h']

theorem itable.hit_iff (t : itable) (n : Nat) (name : Bytes) :
    t.hit n name = true ↔ ∃ e, t.inodes[n]? = some e ∧ e.name = name := by
  unfold itable.hit
  cases t.inodes[n]? with
  | none => simp
  | some e => simp [bytes.Equal]

theorem itable.probe_set (t : itable) (r : Nat) (e node : inode)
    (he : t.inodes[r]? = some e) (hn : e.name = node.name) (name : Bytes) :
    itable.probe { t with inodes := t.inodes.set r node } name = t.probe name := by
  funext i
  unfold itable.probe
  simp only [List.getElem?_set]
  by_cases hri : r = i
  · subst hri
    have hlt : r < t.inodes.length := by
      rcases List.getElem?_eq_some_iff.mp he with ⟨h, _⟩
      exact h
    simp [hlt, he, hn]
  · simp [hri]

theorem itable.Insert_found (t : itable) (node : inode)
    (h : t.hit (sort.Search t.inodes.length (t.probe node.name)) node.name = true) :
    t.Insert node true =
      { t with inodes := t.inodes.set (sort.Search t.inodes.length (t.probe node.name)) node } := by
  unfold itable.Insert
  simp [h]

theorem itable.Insert_missed (t : itable) (node : inode) (unique : Bool)
    (h : t.hit (sort.Search t.inodes.length (t.probe node.name)) node.name = false) :
    (t.Insert node unique).inodes = t.inodes ++ [node] := by
  have hs := (sort.Search_spec t.inodes.length (t.probe node.name)).2.2
  have hlen : sort.Search t.inodes.length (t.probe node.name) = t.inodes.length := by
    rcases hs with hs | hs
    · exact hs
    · rw [← itable.hit_eq_probe, h] at hs
      exact absurd hs (by simp)
  unfold itable.Insert
  simp only [h, Bool.false_eq_true, if_false]
  rw [hlen, itable.insertAt_inodes t _ node (Nat.le_refl _)]
  simp

theorem itable.Insert_unique_is_found (t : itable) (node : inode) :
    (t.Insert node true).hit
      (sort.Search (t.Insert node true).inodes.length ((t.Insert node true).probe node.name))
      node.name = true := by
  by_cases h : t.hit (sort.Search t.inodes.length (t.probe node.name)) node.name = true
  · obtain ⟨e, he, hn⟩ := (itable.hit_iff t _ node.name).mp h
    have hlt : sort.Search t.inodes.length (t.probe node.name) < t.inodes.length := by
      rcases List.getElem?_eq_some_iff.mp he with ⟨k, _⟩
      exact k
    rw [itable.Insert_found t node h, itable.probe_set t _ e node he hn node.name]
    simp only [List.length_set]
    rw [itable.hit_iff]
    exact ⟨node, by simp [hlt], rfl⟩
  · have h' : t.hit (sort.Search t.inodes.length (t.probe node.name)) node.name = false := by
      simpa using h
    have hin := itable.Insert_missed t node true h'
    have hlast : (t.Insert node true).probe node.name t.inodes.length = true := by
      unfold itable.probe
      rw [hin]
      simp [bytes.Equal]
    obtain ⟨h1, h2, h3⟩ :=
      sort.Search_spec (t.Insert node true).inodes.length ((t.Insert node true).probe node.name)
    rw [itable.hit_eq_probe]
    rcases h3 with h3 | h3
    · rcases h2 with h2 | ⟨_, h2⟩
      · rw [h2, hin] at h3
        simp at h3
      · rw [h3, hin] at h2
        simp only [List.length_append, List.length_singleton, Nat.add_sub_cancel] at h2
        rw [hlast] at h2
        exact absurd h2 (by simp)
    · exact h3

theorem itable.Get_of_hit (t : itable) (name : Bytes) (e : inode)
    (he : t.inodes[sort.Search t.inodes.length (t.probe name)]? = some e) (hn : e.name = name) :
    t.Get name = (true, e.ptr) := by
  unfold itable.Get
  simp [he, hn, bytes.Equal]

theorem itable.deleteAllLoop_spec (name : Bytes) (n : Nat) :
    ∀ (k : Nat) (t : itable), t.Size = k →
      ∃ (removed : List inode) (t' : itable),
        (∀ (extra : Nat) (res : List inode),
          itable.deleteAllLoop name n (k + 1 + extra) t res = some (res ++ removed, t')) ∧
        t'.Size + removed.length = k ∧
        removed.map inode.name = List.replicate removed.length name := by
  intro k
  induction k with
  | zero =>
    intro t ht
    have hnil : t.inodes = [] := List.length_eq_zero.mp ht
    refine ⟨[], t, ?_, by simpa using ht, by simp⟩
    intro extra res
    have : 0 + 1 + extra = extra + 1 := by omega
    rw [this]
    simp [itable.deleteAllLoop, hnil]
  | succ k ih =>
    intro t ht
    cases hget : t.inodes[n]? with
    | none =>
      refine ⟨[], t, ?_, by simpa using ht, by simp⟩
      intro extra res
      have : k + 1 + 1 + extra = (k + 1 + extra) + 1 := by omega
      rw [this]
      simp [itable.deleteAllLoop, hget]
    | some e =>
      by_cases hname : e.name = name
      · have hlt : n < t.inodes.length := by
          rcases List.getElem?_eq_some_iff.mp hget with ⟨h, _⟩
          exact h
        have hsize : (t.deleteAt n).Size = k := by
          unfold itable.Size at ht ⊢
          rw [itable.deleteAt_inodes t n hlt]
          simp
          omega
        obtain ⟨removed, t', hrun, hsz, hnames⟩ := ih (t.deleteAt n) hsize
        refine ⟨e :: removed, t', ?_, by simp; omega, ?_⟩
        · intro extra res
          have : k + 1 + 1 + extra = (k + 1 + extra) + 1 := by omega
          rw [this]
          simp only [itable.deleteAllLoop, hget, bytes.Equal, hname, decide_True, if_true]
          rw [hrun extra (res ++ [e])]
          simp
        · simp [hname, hnames, List.replicate_succ]
      · refine ⟨[], t, ?_, by simpa using ht, by simp⟩
        intro extra res
        have : k + 1 + 1 + extra = (k + 1 + extra) + 1 := by omega
        rw [this]
        simp [itable.deleteAllLoop, hget, bytes.Equal, hname]

/-! ## Facts about the parser -/

theorem DataInputReader.ReadFull_keeps_buffer (r : DataInputReader) (b : Bytes) :
    (r.ReadFull b).2.1 = b := by
  unfold DataInputReader.ReadFull
  simp only []
  split <;> rfl

theorem itable.Read_receiver (sha512_256 : Bytes → Bytes) (t : itable) (opts : Options)
    (reader : ByteStream) : (t.Read sha512_256 opts reader).2 = t := by
  unfold itable.Read
  simp only []
  split_ifs <;> rfl

theorem itable.Read_stops_at_magic (sha512_256 : Bytes → Bytes) (t : itable) (opts : Options)
    (reader : ByteStream) :
    t.Read sha512_256 opts reader =
      (some (GoError.ErrInvalidIndexFormat (some (GoError.Errorf Msg.invalidMagicBytes
        ((NewDataInputReader (NewHashingReader (opts.newHash sha512_256) reader)).ReadFull
          (List.replicate 8 0)).2.2.Error))), t) := by
  unfold itable.Read
  simp only [DataInputReader.ReadFull_keeps_buffer]
  have hmagic : bytes.Equal (List.replicate 8 0) itableMagic = false := by decide
  simp only [hmagic, Bool.not_false, if_true]

theorem HashingReader.Read_progress (h : HashingReader) (p : Bytes) (hp : p ≠ []) :
    (h.Read p).2.1.length = p.length ∧ (h.Read p).1.1 ≤ p.length ∧
    ((h.Read p).1.2 ≠ none ∨ 0 < (h.Read p).1.1) := by
  unfold HashingReader.Read ByteStream.Read Hash.Write
  have hpl : 0 < p.length := List.length_pos.mpr hp
  cases hrest : h.reader.rest with
  | nil => simp
  | cons a rest =>
    have e1 : (List.take (min p.length (a :: rest).length)
        (List.take p.length (a :: rest) ++ List.drop (a :: rest).length p)).length
          = min p.length (a :: rest).length := by
      simp only [List.length_take, List.length_append, List.length_drop, List.length_cons]
      omega
    simp only [goCopy, e1, ne_eq, not_true, if_false]
    simp only [List.length_take, List.length_append, List.length_drop, List.length_cons]
    refine ⟨by omega, by omega, Or.inr (by omega)⟩

theorem goReadAtLeastLoop_exit (min : Nat) :
    ∀ (fuel : Nat) (r : HashingReader) (buf : Bytes) (n : Nat) (err : Option GoError),
      buf.length = min → n ≤ min → (err ≠ none ∨ min - n < fuel) →
      (goReadAtLeastLoop min fuel r buf n err).2.1.length = min ∧
      ¬ ((goReadAtLeastLoop min fuel r buf n err).1.1 < min ∧
          (goReadAtLeastLoop min fuel r buf n err).1.2 = none) := by
  intro fuel
  induction fuel with
  | zero =>
    intro r buf n err hb hn hf
    simp only [goReadAtLeastLoop]
    refine ⟨hb, ?_⟩
    rintro ⟨_, h2⟩
    rcases hf with hf | hf
    · exact hf h2
    · omega
  | succ k ih =>
    intro r buf n err hb hn hf
    unfold goReadAtLeastLoop
    by_cases hc : n < min ∧ err.isNone = true
    · simp only [hc, and_self, if_true]
      have hne : buf.drop n ≠ [] := by
        intro h0
        have := congrArg List.length h0
        simp at this
        omega
      obtain ⟨p1, p2, p3⟩ := HashingReader.Read_progress r (buf.drop n) hne
      have hdl : (buf.drop n).length = min - n := by simp [hb]
      apply ih
      · simp only [List.length_append, List.length_take, p1, hdl]
        omega
      · omega
      · rcases p3 with p3 | p3
        · exact Or.inl p3
        · right
          rcases hf with hf | hf
          · exact absurd (by simpa using hc.2) hf
          · omega
    · simp only [hc, if_false]
      refine ⟨hb, ?_⟩
      rintro ⟨h1, h2⟩
      exact hc ⟨h1, by simp [h2]⟩

theorem tableAB_sorted : tableAB.sorted := by
  intro i a b ha hb
  match i with
  | 0 =>
    simp only [tableAB, List.getElem?_cons_zero, List.getElem?_cons_succ, Option.some.injEq] at ha hb
    subst ha
    subst hb
    decide
  | k + 1 =>
    simp [tableAB] at hb

/-! ## The claims -/

/-- C1 (sort invariant), evaluated on the code: starting from the empty table,
`Insert` of an entry named "b" followed by `Insert` of an entry named "a" (both
with `unique = false`) leaves the table as "b", "a", which violates the sort
invariant. -/
theorem sort_invariant_fails_after_two_inserts :
    ((itable.empty.Insert entryB false).Insert entryA false).inodes = [entryB, entryA] ∧
    ¬ ((itable.empty.Insert entryB false).Insert entryA false).sorted := by
  refine ⟨by decide, ?_⟩
  intro h
  have h0 := h 0 entryB entryA (by decide) (by decide)
  revert h0
  decide

/-- C2 (lookup), evaluated on the code: the table "a", "b" is sorted and holds
an entry named "a" at index 0, yet `Get` of "a" reports not found. -/
theorem Get_misses_entry_of_sorted_table :
    tableAB.sorted ∧ tableAB.inodes[0]? = some entryA ∧
    tableAB.Get entryA.name = (false, hPtr.zero) :=
  ⟨tableAB_sorted, by decide, by decide⟩

/-- C3 (unique insert replaces), evaluated on the code: on the sorted table
"a", "b", `Insert` with `unique = true` of a new entry named "a" does not replace
the entry at index 0 but appends, so `Size` grows from 2 to 3. -/
theorem unique_Insert_appends_instead_of_replacing :
    tableAB.sorted ∧ tableAB.Size = 2 ∧
    (tableAB.Insert { name := [97], ptr := hPtr.fill 3 } true).Size = 3 ∧
    (tableAB.Insert { name := [97], ptr := hPtr.fill 3 } true).inodes =
      [entryA, entryB, { name := [97], ptr := hPtr.fill 3 }] :=
  ⟨tableAB_sorted, by decide, by decide, by decide⟩

/-- C4 (idempotent unique insert): for every table, name and pair of pointers,
a second `Insert` with `unique = true` under the same name keeps the `Size`
reached after the first one, and `Get` of that name then returns found with the
pointer inserted last. -/
theorem unique_Insert_twice_keeps_size_and_latest_pointer (t : itable) (n : Bytes) (P1 P2 : hPtr) :
    ((t.Insert { name := n, ptr := P1 } true).Insert { name := n, ptr := P2 } true).Size =
      (t.Insert { name := n, ptr := P1 } true).Size ∧
    ((t.Insert { name := n, ptr := P1 } true).Insert { name := n, ptr := P2 } true).Get n =
      (true, P2) := by
  have hf := itable.Insert_unique_is_found t { name := n, ptr := P1 }
  generalize t.Insert { name := n, ptr := P1 } true = t1 at hf ⊢
  have hf2 : t1.hit (sort.Search t1.inodes.length (t1.probe n)) n = true := hf
  obtain ⟨e, he, hn⟩ := (itable.hit_iff t1 _ n).mp hf2
  have hlt : sort.Search t1.inodes.length (t1.probe n) < t1.inodes.length := by
    rcases List.getElem?_eq_some_iff.mp he with ⟨k, _⟩
    exact k
  have hins := itable.Insert_found t1 { name := n, ptr := P2 } hf2
  have hpr := itable.probe_set t1 _ e { name := n, ptr := P2 } he hn n
  rw [hins]
  constructor
  · simp [itable.Size]
  · apply itable.Get_of_hit _ n { name := n, ptr := P2 } _ rfl
    rw [hpr]
    simp [hlt]

/-- C5 (duplicate handling): for every name and pair of pointers, two `Insert`
calls with `unique = false` on the empty table give `Size` 2 with the later
entry in front, `Get` returns found with the later pointer, and `DeleteAll`
returns both entries, leftmost first, and leaves the table empty. -/
theorem duplicate_Insert_then_Get_and_DeleteAll (n : Bytes) (P1 P2 : hPtr) :
    ((itable.empty.Insert { name := n, ptr := P1 } false).Insert { name := n, ptr := P2 } false).Size = 2 ∧
    ((itable.empty.Insert { name := n, ptr := P1 } false).Insert { name := n, ptr := P2 } false).inodes =
      [{ name := n, ptr := P2 }, { name := n, ptr := P1 }] ∧
    ((itable.empty.Insert { name := n, ptr := P1 } false).Insert { name := n, ptr := P2 } false).Get n =
      (true, P2) ∧
    ((itable.empty.Insert { name := n, ptr := P1 } false).Insert { name := n, ptr := P2 } false).DeleteAll n =
      some ([{ name := n, ptr := P2 }, { name := n, ptr := P1 }], itable.empty) ∧
    Option.map (fun r => r.2.Size)
      (((itable.empty.Insert { name := n, ptr := P1 } false).Insert { name := n, ptr := P2 } false).DeleteAll n) =
      some 0 := by
  have h2 : (itable.empty.Insert { name := n, ptr := P1 } false).Insert { name := n, ptr := P2 } false =
      { txnId := 0, inodes := [{ name := n, ptr := P2 }, { name := n, ptr := P1 }] } := by
    simp [itable.Insert, itable.empty, sort.Search, sort.searchLoop, itable.probe, itable.hit,
      bytes.Equal, itable.insertAt, goCopy]
  have h3 : itable.DeleteAll { txnId := 0, inodes := [{ name := n, ptr := P2 }, { name := n, ptr := P1 }] } n =
      some ([{ name := n, ptr := P2 }, { name := n, ptr := P1 }], itable.empty) := by
    simp [itable.DeleteAll, itable.DeleteAllFuel, itable.deleteAllLoop, itable.Size, itable.empty,
      sort.Search, sort.searchLoop, itable.probe, bytes.Equal, itable.deleteAt, goCopy]
  rw [h2, h3]
  refine ⟨rfl, rfl, ?_, rfl, rfl⟩
  simp [itable.Get, sort.Search, sort.searchLoop, itable.probe, bytes.Equal]

/-- C6 (deletion), evaluated on the code: the table "a", "b" is sorted and holds
an entry named "a", yet `Delete` of "a" returns false and leaves the table as it
was. -/
theorem Delete_misses_entry_of_sorted_table :
    tableAB.sorted ∧ tableAB.inodes[0]? = some entryA ∧
    tableAB.Delete entryA.name = ((false, inode.zero), tableAB) :=
  ⟨tableAB_sorted, by decide, by decide⟩

/-- C7 (bulk deletion), evaluated on the code: the table "a", "b" is sorted and
holds an entry named "a", yet `DeleteAll` of "a" returns no entry and the entry
is still in the table afterwards. -/
theorem DeleteAll_misses_entry_of_sorted_table :
    tableAB.sorted ∧ tableAB.inodes[0]? = some entryA ∧
    tableAB.DeleteAll entryA.name = some ([], tableAB) :=
  ⟨tableAB_sorted, by decide, by decide⟩

/-- C8 (termination of `DeleteAll`): for every table and name, removing an
entry at a valid index shrinks the table by one, the loop of `DeleteAll` ends
within `Size` executions of its body (any fuel above `Size` gives the same
result, and so does `DeleteAll` itself), the number of returned inodes is at
most the original `Size`, the `Size` afterwards is the original `Size` minus the
number of returned inodes, and every returned inode carries the name asked for. -/
theorem DeleteAll_terminates_and_accounts (t : itable) (name : Bytes) :
    (∀ (u : itable) (i : Fin u.inodes.length), (u.deleteAt i.val).Size + 1 = u.Size) ∧
    ∃ (res : List inode) (t' : itable),
      (∀ extra : Nat, t.DeleteAllFuel (t.Size + 1 + extra) name = some (res, t')) ∧
      t.DeleteAll name = some (res, t') ∧
      res.length ≤ t.Size ∧
      t'.Size = t.Size - res.length ∧
      res.map inode.name = List.replicate res.length name := by
  constructor
  · intro u i
    unfold itable.Size
    rw [itable.deleteAt_inodes u i.val i.isLt]
    have := i.isLt
    simp
    omega
  · obtain ⟨removed, t', hrun, hsz, hnames⟩ :=
      itable.deleteAllLoop_spec name (sort.Search t.inodes.length (t.probe name)) t.Size t rfl
    refine ⟨removed, t', ?_, ?_, by omega, by omega, hnames⟩
    · intro extra
      unfold itable.DeleteAllFuel
      simpa using hrun extra []
    · unfold itable.DeleteAll itable.DeleteAllFuel
      simpa using hrun 0 []

/-- C9 (round trip), evaluated on the code: for every digest function, `Read`
with the empty secret applied to the image of the empty table (transaction id 0)
returns an `ErrInvalidIndexFormat` whose cause is the "invalid magic bytes" error
wrapping nil, and the receiver, here the table "a", "b" with transaction id 7,
is left as it was instead of becoming the empty table. `ReadFull` never fills
the buffer `readMagic`, so the magic comparison fails on every input
(`itable.Read_stops_at_magic`). -/
theorem Read_rejects_image_of_empty_table (sha512_256 : Bytes → Bytes) :
    tableAB.Read sha512_256 { Paths := [], HMACSecret := [] }
        { rest := emptyTableImage sha512_256 } =
      (some (GoError.ErrInvalidIndexFormat (some (GoError.Errorf Msg.invalidMagicBytes none))),
        tableAB) ∧
    tableAB ≠ itable.empty := by
  refine ⟨?_, by decide⟩
  rw [itable.Read_stops_at_magic]
  rfl

/-- C10 (parse atomicity): for every table, options, digest function and input
stream, an error returned by `Read` is an `ErrInvalidIndexFormat`, and the
receiver (entries and transaction id) is what it was before the call. -/
theorem Read_error_is_format_error_and_receiver_kept (sha512_256 : Bytes → Bytes) (t : itable)
    (opts : Options) (reader : ByteStream) (e : GoError)
    (h : (t.Read sha512_256 opts reader).1 = some e) :
    e.isErrInvalidIndexFormat = true ∧
    (t.Read sha512_256 opts reader).2.inodes = t.inodes ∧
    (t.Read sha512_256 opts reader).2.txnId = t.txnId := by
  refine ⟨?_, by rw [itable.Read_receiver], by rw [itable.Read_receiver]⟩
  unfold itable.Read at h
  simp only [] at h
  split_ifs at h <;> (simp only [Option.some.injEq] at h; subst h; rfl)

/-- Witness for C10: `Read` of the truncated stream "clio" into the table "a",
"b" returns an `ErrInvalidIndexFormat` and keeps the table. -/
theorem Read_error_is_format_error_and_receiver_kept_witness :
    (tableAB.Read zeroDigest { Paths := [], HMACSecret := [] } { rest := [99, 108, 105, 111] }).1 =
      some (GoError.ErrInvalidIndexFormat (some (GoError.Errorf Msg.invalidMagicBytes
        (some GoError.ErrUnexpectedEOF)))) ∧
    (GoError.ErrInvalidIndexFormat (some (GoError.Errorf Msg.invalidMagicBytes
        (some GoError.ErrUnexpectedEOF)))).isErrInvalidIndexFormat = true ∧
    (tableAB.Read zeroDigest { Paths := [], HMACSecret := [] } { rest := [99, 108, 105, 111] }).2.inodes =
      tableAB.inodes ∧
    (tableAB.Read zeroDigest { Paths := [], HMACSecret := [] } { rest := [99, 108, 105, 111] }).2.txnId =
      tableAB.txnId :=
  ⟨rfl, Read_error_is_format_error_and_receiver_kept zeroDigest tableAB
      { Paths := [], HMACSecret := [] } { rest := [99, 108, 105, 111] } _ rfl⟩

/-! ## Facts about the byte order -/

theorem bytes.Compare_self : ∀ a : Bytes, bytes.Compare a a = 0 := by
  intro a
  induction a with
  | nil => rfl
  | cons x xs ih => simp [bytes.Compare, ih]

theorem bytes.Compare_antisymm :
    ∀ a b : Bytes, bytes.Compare a b ≤ 0 → bytes.Compare b a ≤ 0 → a = b := by
  intro a
  induction a with
  | nil =>
    intro b h1 h2
    cases b with
    | nil => rfl
    | cons y ys => simp [bytes.Compare] at h2
  | cons x xs ih =>
    intro b h1 h2
    cases b with
    | nil => simp [bytes.Compare] at h1
    | cons y ys =>
      simp only [bytes.Compare] at h1 h2
      by_cases hxy : x < y
      · have hyx : ¬ y < x := by omega
        simp [hxy, hyx] at h2
      · by_cases hyx : y < x
        · simp [hxy, hyx] at h1
        · simp only [hxy, hyx, if_false] at h1 h2
          have e : x = y := by omega
          rw [e, ih ys h1 h2]

theorem bytes.Compare_trans :
    ∀ a b c : Bytes, bytes.Compare a b ≤ 0 → bytes.Compare b c ≤ 0 → bytes.Compare a c ≤ 0 := by
  intro a
  induction a with
  | nil =>
    intro b c _ _
    cases c <;> simp [bytes.Compare]
  | cons x xs ih =>
    intro b c h1 h2
    cases b with
    | nil => simp [bytes.Compare] at h1
    | cons y ys =>
      cases c with
      | nil => simp [bytes.Compare] at h2
      | cons z zs =>
        simp only [bytes.Compare] at h1 h2 ⊢
        by_cases hxy : x < y
        · by_cases hyz : y < z
          · have hxz : x < z := by omega
            simp [hxz]
          · by_cases hzy : z < y
            · simp [hyz, hzy] at h2
            · have hxz : x < z := by omega
              simp [hxz]
        · by_cases hyx : y < x
          · simp [hxy, hyx] at h1
          · simp only [hxy, hyx, if_false] at h1
            have e : x = y := by omega
            subst e
            by_cases hxz : x < z
            · simp [hxz]
            · by_cases hzx : z < x
              · simp [hxz, hzx] at h2
              · simp only [hxz, hzx, if_false] at h2 ⊢
                exact ih ys zs h1 h2

theorem itable.sorted_le (t : itable) (hs : t.sorted) :
    ∀ (d i : Nat) (a b : inode), t.inodes[i]? = some a → t.inodes[i + d]? = some b →
      bytes.Compare a.name b.name ≤ 0 := by
  intro d
  induction d with
  | zero =>
    intro i a b ha hb
    rw [Nat.add_zero, ha] at hb
    cases hb
    rw [bytes.Compare_self]
  | succ d ih =>
    intro i a b ha hb
    have hlt : i + d < t.inodes.length := by
      rcases List.getElem?_eq_some_iff.mp hb with ⟨h, _⟩
      omega
    have hc : t.inodes[i + d]? = some (t.inodes[i + d]) := List.getElem?_eq_getElem hlt
    exact bytes.Compare_trans _ _ _ (ih i a _ ha hc) (hs (i + d) _ b hc hb)

theorem itable.Insert_nonunique (t : itable) (e : inode) :
    t.Insert e false = t.insertAt (sort.Search t.inodes.length (t.probe e.name)) e := by
  by_cases h : t.hit (sort.Search t.inodes.length (t.probe e.name)) e.name = true <;>
    simp [itable.Insert, h]

theorem itable.eq_of_fields (a b : itable) (h1 : a.txnId = b.txnId) (h2 : a.inodes = b.inodes) :
    a = b := by
  cases a
  cases b
  simp only at h1 h2
  subst h1
  subst h2
  rfl

theorem eraseIdx_take_cons_drop {α : Type} (l : List α) (x : α) (n : Nat)
    (h : n ≤ l.length) : (l.take n ++ x :: l.drop n).eraseIdx n = l := by
  have hl : (l.take n).length = n := by simp [h]
  rw [List.eraseIdx_append_of_length_le (by omega), hl, Nat.sub_self]
  simp

theorem getElem?_take_cons_drop {α : Type} (l : List α) (x : α) (n : Nat)
    (h : n ≤ l.length) : (l.take n ++ x :: l.drop n)[n]? = some x := by
  have hl : (l.take n).length = n := by simp [h]
  rw [List.getElem?_append_right (by omega), hl, Nat.sub_self]
  simp

/-- C19 (non-unique insert adds exactly one entry): for every table and inode,
`Insert` with `unique = false` raises `Size` by one and keeps the transaction
id, and there is an index of the result that holds the inode and whose removal
gives back the original entries in their order. -/
theorem nonunique_Insert_adds_one_entry (t : itable) (e : inode) :
    (t.Insert e false).Size = t.Size + 1 ∧ (t.Insert e false).txnId = t.txnId ∧
    ∃ n : Nat, (t.Insert e false).inodes[n]? = some e ∧
      (t.Insert e false).inodes.eraseIdx n = t.inodes ∧
      (t.Insert e false).deleteAt n = t := by
  have hn : sort.Search t.inodes.length (t.probe e.name) ≤ t.inodes.length :=
    (sort.Search_spec _ _).1
  have hi := itable.insertAt_inodes t _ e hn
  rw [itable.Insert_nonunique]
  generalize sort.Search t.inodes.length (t.probe e.name) = n at hn hi
  have hlen : (t.insertAt n e).inodes.length = t.inodes.length + 1 := by
    rw [hi]
    simp
    omega
  refine ⟨hlen, rfl, n, ?_, ?_, ?_⟩
  · rw [hi]
    exact getElem?_take_cons_drop t.inodes e n hn
  · rw [hi]
    exact eraseIdx_take_cons_drop t.inodes e n hn
  · have hd := itable.deleteAt_inodes (t.insertAt n e) n (by omega)
    have htx : ((t.insertAt n e).deleteAt n).txnId = t.txnId := rfl
    have hin : ((t.insertAt n e).deleteAt n).inodes = t.inodes := by
      rw [hd, hi]
      have hl : (t.inodes.take n).length = n := by simp [hn]
      have e1 : List.drop (n + 1) (List.take n t.inodes) = [] :=
        List.drop_eq_nil_of_le (by omega)
      have e2 : n + 1 - n = 1 := by omega
      rw [List.take_left' hl, List.drop_append_eq_append_drop, hl, e1, e2]
      simp
    exact itable.eq_of_fields _ _ htx hin

/-- C20 (found means leftmost): for every sorted table and name, when `Get`
reports found, the pointer it returns is that of an entry with the name asked
for, and no entry at a lower index has that name. -/
theorem Get_found_is_leftmost (t : itable) (name : Bytes) (hs : t.sorted)
    (hg : (t.Get name).1 = true) :
    ∃ (r : Nat) (e : inode), t.inodes[r]? = some e ∧ e.name = name ∧
      t.Get name = (true, e.ptr) ∧
      ∀ (i : Nat) (x : inode), i < r → t.inodes[i]? = some x → x.name ≠ name := by
  obtain ⟨_, hleft, _⟩ := sort.Search_spec t.inodes.length (t.probe name)
  cases hget : t.inodes[sort.Search t.inodes.length (t.probe name)]? with
  | none =>
    simp [itable.Get, hget] at hg
  | some e =>
    have hname : e.name = name := by
      by_cases hb : e.name = name
      · exact hb
      · simp [itable.Get, hget, bytes.Equal, hb] at hg
    refine ⟨_, e, hget, hname, itable.Get_of_hit t name e hget hname, ?_⟩
    intro i x hi hx hxn
    rcases hleft with h0 | ⟨hpos, hprobe⟩
    · omega
    · generalize sort.Search t.inodes.length (t.probe name) = r at hget hi hpos hprobe
      have hrlt : r < t.inodes.length := by
        rcases List.getElem?_eq_some_iff.mp hget with ⟨h, _⟩
        exact h
      have hc : t.inodes[r - 1]? = some (t.inodes[r - 1]) := List.getElem?_eq_getElem (by omega)
      have hget' : t.inodes[r - 1 + 1]? = some e := by
        have : r - 1 + 1 = r := by omega
        rw [this]; exact hget
      have hc' : t.inodes[i + (r - 1 - i)]? = some (t.inodes[r - 1]) := by
        have : i + (r - 1 - i) = r - 1 := by omega
        rw [this]; exact hc
      have h1 := itable.sorted_le t hs (r - 1 - i) i x _ hx hc'
      have h2 := hs (r - 1) _ e hc hget'
      rw [hxn] at h1
      rw [hname] at h2
      have heq := bytes.Compare_antisymm _ _ h1 h2
      unfold itable.probe at hprobe
      rw [hc] at hprobe
      simp [bytes.Equal, heq] at hprobe

theorem tableABB_sorted : tableABB.sorted := by
  intro i a b ha hb
  match i with
  | 0 =>
    simp only [tableABB, List.getElem?_cons_zero, List.getElem?_cons_succ, Option.some.injEq] at ha hb
    subst ha
    subst hb
    decide
  | 1 =>
    simp only [tableABB, List.getElem?_cons_zero, List.getElem?_cons_succ, Option.some.injEq] at ha hb
    subst ha
    subst hb
    decide
  | k + 2 =>
    simp [tableABB] at hb

theorem HashingReader.Read_count (h : HashingReader) (p : Bytes) :
    (h.Read p).2.2.count = h.count := by
  unfold HashingReader.Read
  simp only []
  split
  · rfl
  · rfl
  · rfl
  · split <;> rfl

/-- Witness for C20: in the sorted table "a", "b", "b", `Get` of "b" reports
found with the pointer of index 1, and index 0 does not carry the name. -/
theorem Get_found_is_leftmost_witness :
    tableABB.sorted ∧ (tableABB.Get [98]).1 = true ∧
    ∃ (r : Nat) (e : inode), tableABB.inodes[r]? = some e ∧ e.name = [98] ∧
      tableABB.Get [98] = (true, e.ptr) ∧
      ∀ (i : Nat) (x : inode), i < r → tableABB.inodes[i]? = some x → x.name ≠ [98] :=
  ⟨tableABB_sorted, by decide, Get_found_is_leftmost tableABB [98] tableABB_sorted (by decide)⟩

/-- C11 (truncation safety): for every table `T`, secret and keyed digest, and
every offset up to the start of the trailing digest, `Read` applied to the image
of `T` cut at that offset returns an `ErrInvalidIndexFormat`, not nil, and the
receiving table is left as it was. -/
theorem Read_of_truncated_image_is_format_error (sha512_256 : Bytes → Bytes)
    (keyedDigest : Bytes → Bytes → Bytes) (T : itable) (S : Bytes) (t : itable) (opts : Options)
    (off : Nat) (h : off ≤ T.imageBody.length) :
    (T.image keyedDigest S).take off = T.imageBody.take off ∧
    (t.Read sha512_256 opts { rest := (T.image keyedDigest S).take off }).1.map
        GoError.isErrInvalidIndexFormat = some true ∧
    (t.Read sha512_256 opts { rest := (T.image keyedDigest S).take off }).2 = t := by
  refine ⟨?_, ?_, ?_⟩
  · unfold itable.image
    rw [List.take_append_of_le_length h]
  · rw [itable.Read_stops_at_magic]
    rfl
  · rw [itable.Read_receiver]

/-- Witness for C11: the image of the table "a", "b" cut after 20 bytes. -/
theorem Read_of_truncated_image_is_format_error_witness :
    20 ≤ tableAB.imageBody.length ∧
    (tableAB.image zeroKeyedDigest []).take 20 = tableAB.imageBody.take 20 ∧
    (itable.empty.Read zeroDigest { Paths := [], HMACSecret := [] }
        { rest := (tableAB.image zeroKeyedDigest []).take 20 }).1.map
        GoError.isErrInvalidIndexFormat = some true ∧
    (itable.empty.Read zeroDigest { Paths := [], HMACSecret := [] }
        { rest := (tableAB.image zeroKeyedDigest []).take 20 }).2 = itable.empty :=
  ⟨by decide, Read_of_truncated_image_is_format_error zeroDigest zeroKeyedDigest tableAB []
      itable.empty { Paths := [], HMACSecret := [] } 20 (by decide)⟩

/-- C12 (integrity sensitivity), evaluated on the code: for every digest
function, `Read` with the secret `[1]` applied to the image of the empty table
made with the empty secret returns the "invalid magic bytes" error, which is not
the integrity error: the parser never reaches the integrity check. -/
theorem Read_with_other_secret_reports_magic_not_integrity (sha512_256 : Bytes → Bytes) :
    tableAB.Read sha512_256 { Paths := [], HMACSecret := [1] }
        { rest := emptyTableImage sha512_256 } =
      (some (GoError.ErrInvalidIndexFormat (some (GoError.Errorf Msg.invalidMagicBytes none))),
        tableAB) ∧
    (tableAB.Read sha512_256 { Paths := [], HMACSecret := [1] }
        { rest := emptyTableImage sha512_256 }).1.map GoError.isIntegrityError = some false := by
  have h : tableAB.Read sha512_256 { Paths := [], HMACSecret := [1] }
        { rest := emptyTableImage sha512_256 } =
      (some (GoError.ErrInvalidIndexFormat (some (GoError.Errorf Msg.invalidMagicBytes none))),
        tableAB) := by
    rw [itable.Read_stops_at_magic]
    rfl
  rw [h]
  exact ⟨rfl, rfl⟩

/-- C13 (`ReadFull` reads exactly `len(b)` bytes), evaluated on the code: with a
two-byte buffer and nine bytes in the stream, `ReadFull` returns 8, consumes
eight bytes into the reader's own buffer and leaves the caller's buffer as it
was; with exactly two bytes in the stream it returns 2, leaves the caller's
buffer as it was and records `io.ErrUnexpectedEOF`. -/
theorem ReadFull_ignores_the_callers_buffer :
    ((sampleDataInput [1, 2, 3, 4, 5, 6, 7, 8, 9]).ReadFull [0, 0]).1 = 8 ∧
    ((sampleDataInput [1, 2, 3, 4, 5, 6, 7, 8, 9]).ReadFull [0, 0]).2.1 = [0, 0] ∧
    ((sampleDataInput [1, 2, 3, 4, 5, 6, 7, 8, 9]).ReadFull [0, 0]).2.2.buf8 =
      [1, 2, 3, 4, 5, 6, 7, 8] ∧
    ((sampleDataInput [1, 2, 3, 4, 5, 6, 7, 8, 9]).ReadFull [0, 0]).2.2.input.reader.rest = [9] ∧
    ((sampleDataInput [1, 2]).ReadFull [0, 0]).1 = 2 ∧
    ((sampleDataInput [1, 2]).ReadFull [0, 0]).2.1 = [0, 0] ∧
    ((sampleDataInput [1, 2]).ReadFull [0, 0]).2.2.Error = some GoError.ErrUnexpectedEOF :=
  ⟨rfl, rfl, rfl, rfl, rfl, rfl, rfl⟩

/-- C14 (`Count`), evaluated on the code: a `Read` on a fresh `HashingReader`
over three bytes returns 3 without error, and `Count` is still 0 afterwards. -/
theorem Count_stays_zero_after_Read :
    ((sampleHashingReader [1, 2, 3]).Read [0, 0, 0]).1.1 = 3 ∧
    ((sampleHashingReader [1, 2, 3]).Read [0, 0, 0]).1.2.isNone = true ∧
    ((sampleHashingReader [1, 2, 3]).Read [0, 0, 0]).2.1 = [1, 2, 3] ∧
    ((sampleHashingReader [1, 2, 3]).Read [0, 0, 0]).2.2.Count = 0 :=
  ⟨rfl, rfl, rfl, rfl⟩

/-- C15 (double close): `newTransaction` makes an open transaction in the mode
asked for and records the matching acquisition; for every open transaction the
first `Close` returns nil, marks it closed and adds exactly one release in the
mode of the transaction to the lock state; on the closed transaction every
`Close` returns `ErrTxnAlreadyClosed` and leaves the transaction and the lock
state as they are. -/
theorem Close_once_then_already_closed (t : Txn) (db : DB) (h : t.alive = true) :
    (∀ (d : DB) (ro : Bool),
      (newTransaction d ro).1 = { readOnly := ro, alive := true } ∧
      (newTransaction d ro).2.mutex =
        d.mutex ++ [if ro then MutexCall.RLock else MutexCall.Lock]) ∧
    (t.Close db).1 = none ∧
    (t.Close db).2.1 = { t with alive := false } ∧
    (t.Close db).2.2.mutex =
      db.mutex ++ [if t.readOnly then MutexCall.RUnlock else MutexCall.Unlock] ∧
    (∀ d : DB, ({ t with alive := false } : Txn).Close d =
      (some ErrTxnAlreadyClosed, { t with alive := false }, d)) := by
  refine ⟨?_, ?_, ?_, ?_, ?_⟩
  · intro d ro
    cases ro <;> exact ⟨rfl, rfl⟩
  · simp [Txn.Close, h]
  · simp [Txn.Close, h]
  · cases hro : t.readOnly <;> simp [Txn.Close, Txn.unlock, h, hro]
  · intro d
    simp [Txn.Close]

/-- Witness for C15: a read-only transaction made by `newTransaction` on a
fresh store. -/
theorem Close_once_then_already_closed_witness :
    (newTransaction sampleDB true).1.alive = true ∧
    ((newTransaction sampleDB true).1.Close (newTransaction sampleDB true).2).2.2.mutex =
      [MutexCall.RLock, MutexCall.RUnlock] ∧
    (((newTransaction sampleDB true).1.Close (newTransaction sampleDB true).2).2.1.Close
      ((newTransaction sampleDB true).1.Close (newTransaction sampleDB true).2).2.2).1.isSome = true :=
  ⟨rfl,
    (Close_once_then_already_closed (newTransaction sampleDB true).1
      (newTransaction sampleDB true).2 rfl).2.2.2.1,
    rfl⟩

/-- C16 (commit), evaluated on the code: on the open read-write transaction
that `newTransaction` makes on any store, `Commit` panics instead of returning. -/
theorem Commit_panics (db : DB) :
    (newTransaction db false).1 = { readOnly := false, alive := true } ∧
    (newTransaction db false).1.Commit (newTransaction db false).2 = Outcome.panics :=
  ⟨rfl, rfl⟩

/-- C17 (open), evaluated on the code: for every options value, an empty list
of search paths included, `Open` returns a store and the nil error. -/
theorem Open_always_succeeds (opts : Options) :
    (Open opts).2.isNone = true ∧ (Open opts).1.isSome = true ∧
    (Open { Paths := [], HMACSecret := [] }).2.isNone = true ∧
    (Open { Paths := [], HMACSecret := [] }).1.isSome = true :=
  ⟨rfl, rfl, rfl, rfl⟩

end Clio
